import Mathlib

/-!
Verification of the chapter-ingestion pipeline of `nakama-dl` (`src/main.py`).

Strings are modelled as `List Char`.  Python functions of the source are
embedded as executable Lean definitions carrying the same names.  Filesystem
and network effects are passed in explicitly: directory listings become lists
of names, `Image.open` success becomes an oracle `opens : Str → Bool`, and the
per-chapter pipeline returns the run outcome together with the ordered list of
externally visible effects it performed.
-/

abbrev Str := List Char

/-- `leadsWith pat s` is true when `pat` occurs at the start of `s`. -/
def leadsWith : Str → Str → Bool
  | [], _ => true
  | _ :: _, [] => false
  | p :: ps, c :: cs => p = c && leadsWith ps cs

/-- `containsSub pat s`: Python's `pat in s` substring test. -/
def containsSub (pat : Str) : Str → Bool
  | [] => pat.isEmpty
  | c :: rest => leadsWith pat (c :: rest) || containsSub pat rest

/-- ASCII whitespace, as stripped by Python's `str.strip()`. -/
def isPySpace (c : Char) : Bool :=
  c = ' ' || c = '\t' || c = '\n' || c = '\r' || c = '\x0b' || c = '\x0c'

/-- Python's `str.strip()` (ASCII whitespace model). -/
def pyStrip (s : Str) : Str :=
  ((s.dropWhile isPySpace).reverse.dropWhile isPySpace).reverse

/-- Digit scanner for Python's `int()`: after the first digit, single
underscores are allowed between digits (`usc` records a pending
underscore that must be followed by a digit). -/
def pyDigitsGo : Str → Bool → Nat → Option Nat
  | [], usc, acc => if usc then none else some acc
  | c :: rest, usc, acc =>
    if c.isDigit then pyDigitsGo rest false (acc * 10 + (c.toNat - 48))
    else if c = '_' then (if usc then none else pyDigitsGo rest true acc)
    else none

/-- Start of the digit part for Python's `int()`: must begin with a digit. -/
def pyDigitsStart : Str → Option Nat
  | [] => none
  | c :: rest => if c.isDigit then pyDigitsGo rest false (c.toNat - 48) else none

/-- Python's `int(s)`: strip whitespace, optional sign, digits with
underscore separators; any other character raises `ValueError` (`none`). -/
def pyInt (s : Str) : Option Int :=
  match pyStrip s with
  | [] => none
  | c :: r =>
    if c = '+' then (pyDigitsStart r).map Int.ofNat
    else if c = '-' then (pyDigitsStart r).map (fun n => -(Int.ofNat n))
    else (pyDigitsStart (c :: r)).map Int.ofNat

/-- Characters that keep the reverse scan of `os.path.splitext` going:
anything but the extension dot and the path separator. -/
def extKeep (c : Char) : Bool := c != '.' && c != '/'

/-- The stem (`os.path.splitext(p)[0]`): drop the extension after the last
dot of the base name, provided some non-dot character of the base name
precedes that dot (leading dots never start an extension). -/
def splitextStem (p : Str) : Str :=
  match p.reverse.dropWhile extKeep with
  | '.' :: rest2 =>
    if (rest2.takeWhile (· != '/')).any (· != '.') then rest2.reverse else p
  | _ => p

/-- Prepend a character onto the first piece of a split result. -/
def consHead (c : Char) : List Str → List Str
  | [] => [[c]]
  | h :: t => (c :: h) :: t

/-- Python's `s.split('_p')`: split on non-overlapping occurrences of the
two-character separator `_p`, left to right. -/
def splitSub : Str → List Str
  | [] => [[]]
  | c :: rest =>
    let tail1 := consHead c (splitSub rest)
    if c = '_' then
      match rest with
      | [] => [['_']]
      | d :: rest2 => if d = 'p' then [] :: splitSub rest2 else tail1
    else tail1

/-- Split on newline characters (used by the Ledger model). -/
def splitNl : Str → List Str
  | [] => [[]]
  | c :: rest => if c = '\n' then [] :: splitNl rest else consHead c (splitNl rest)

/-- `os.path.join(dir, base)` for a single join: an absolute `base` wins;
otherwise a separator is inserted unless `dir` is empty or ends in one. -/
def joinPath (dir base : Str) : Str :=
  if base.head? = some '/' then base
  else if dir.getLast? = some '/' then dir ++ base
  else if dir = [] then base
  else dir ++ '/' :: base

/-- Strict lexicographic comparison of strings by code point: Python's
`<` on `str`, which is the only comparison `sorted` performs on keys. -/
def lexLt : Str → Str → Bool
  | [], [] => false
  | [], _ :: _ => true
  | _ :: _, [] => false
  | a :: as, b :: bs => if a < b then true else if b < a then false else lexLt as bs

/-- Recognized image extensions, checked case-insensitively
(`f.lower().endswith(('.png', '.jpg', '.jpeg'))`). -/
def hasImageExt (name : Str) : Bool :=
  let l := name.map Char.toLower
  (".png".toList.isSuffixOf l) || (".jpg".toList.isSuffixOf l)
    || (".jpeg".toList.isSuffixOf l)

/-- A Python sort key as produced by `sort_key` in `images_to_pdf`: either an
`(int, int)` pair or the raw string. -/
inductive SortKey where
  | tup (i j : Int)
  | str (s : Str)
deriving DecidableEq

/-- `sort_key(filename)` from `images_to_pdf` (`src/main.py` lines 123-130).
Note the function receives the full joined path, exactly as in the source,
where the key is computed on `os.path.join(image_folder, f)`. -/
def sort_key (p : Str) : SortKey :=
  match splitSub (splitextStem p) with
  | [a, b] =>
    match pyInt (a.filter (· ≠ 'c')), pyInt b with
    | some i, some j => .tup i j
    | _, _ => .str p
  | _ => .str p

/-- The `<` comparison Python's sort performs on two keys; comparing an
`(int, int)` tuple with a `str` raises `TypeError`, modelled as `none`. -/
def keyLt : SortKey → SortKey → Option Bool
  | .tup a b, .tup c d => some (decide (a < c) || (decide (a = c) && decide (b < d)))
  | .str a, .str b => some (lexLt a b)
  | _, _ => none

/-- Stable insertion of `x` into an already sorted list, by the key
comparison; `none` when an incomparable pair of keys is met. -/
def insertSorted (key : Str → SortKey) (x : Str) : List Str → Option (List Str)
  | [] => some [x]
  | y :: ys =>
    match keyLt (key x) (key y) with
    | none => none
    | some true => some (x :: y :: ys)
    | some false => (insertSorted key x ys).map (y :: ·)

/-- Stable sort (model of Python's `sorted(..., key=...)`): insert each
element in listing order; `none` models the `TypeError` raised when keys of
mismatched types get compared. -/
def pySortedFrom (key : Str → SortKey) : List Str → List Str → Option (List Str)
  | acc, [] => some acc
  | acc, x :: xs =>
    match insertSorted key x acc with
    | none => none
    | some acc2 => pySortedFrom key acc2 xs

def pySorted (key : Str → SortKey) (l : List Str) : Option (List Str) :=
  pySortedFrom key [] l

/-- Outcome of `images_to_pdf`: `crash` is an uncaught exception escaping the
function (the sort's `TypeError`), `failure` is `return False` with no file
written, `success pages` is `return True` with a PDF whose page sequence is
`pages`. -/
inductive PdfResult where
  | crash
  | failure
  | success (pages : List Str)
deriving DecidableEq

/-- `images_to_pdf(image_folder, ...)` (`src/main.py` lines 114-159).
`listing` is `os.listdir(image_folder)`, `opens p` tells whether
`Image.open(p)` succeeds, and `saveOk` tells whether the final
`images[0].save(output_pdf_path, ...)` call succeeds: when it raises, the
exception is caught (lines 154-156), the function logs and returns `False`
— possibly leaving a partially written file behind.  Image-open failures
are skipped with a warning, exactly as in the source. -/
def images_to_pdf (listing : List Str) (opens : Str → Bool) (saveOk : Bool)
    (image_folder : Str) : PdfResult :=
  let image_files := listing.filter hasImageExt
  match pySorted sort_key (image_files.map (joinPath image_folder)) with
  | none => .crash
  | some image_paths =>
    if image_paths.isEmpty then .failure
    else
      let images := image_paths.filter opens
      if images.isEmpty then .failure
      else if saveOk then .success images else .failure


/-! ### Spec-side Document Assembler ordering (for comparison with the code) -/

/-- Modelled from the spec: the intended structural key of the Document
Assembler, parsed from the bare file name `c<chapterTag>_p<pageNumber>` with
numeric chapter tag and page number. -/
def specChapterPage (name : Str) : Option (Nat × Nat) :=
  match splitSub (splitextStem name) with
  | [a, b] =>
    match a with
    | 'c' :: ds =>
      if !ds.isEmpty && ds.all Char.isDigit && !b.isEmpty && b.all Char.isDigit then
        some (ds.foldl (fun n c => n * 10 + (c.toNat - 48)) 0,
              b.foldl (fun n c => n * 10 + (c.toNat - 48)) 0)
      else none
    | _ => none
  | _ => none

/-- Modelled from the spec: matching names compare ascending by
`(chapterTag, pageNumber)`; non-matching names fall back to their own raw
string. -/
def specLtName (x y : Str) : Bool :=
  match specChapterPage x, specChapterPage y with
  | some (c1, p1), some (c2, p2) =>
    decide (c1 < c2) || (decide (c1 = c2) && decide (p1 < p2))
  | _, _ => lexLt x y

def specInsertName (x : Str) : List Str → List Str
  | [] => [x]
  | y :: ys => if specLtName x y then x :: y :: ys else y :: specInsertName x ys

def specSortFrom : List Str → List Str → List Str
  | acc, [] => acc
  | acc, x :: xs => specSortFrom (specInsertName x acc) xs

/-- Modelled from the spec: the page order the spec promises, i.e. a stable
sort of the bare file names by the spec's per-name key. -/
def specPageOrder (names : List Str) : List Str := specSortFrom [] names

/-! ### Link Resolver (`get_mega_file_url`, lines 162-182) -/

/-- `get_mega_file_url`, given the `href` targets of the landing page's
anchors in document order: keeps those with `'mega.nz' in href` (a substring
test) and returns the first, or `None`. -/
def get_mega_file_url (hrefs : List Str) : Option Str :=
  (hrefs.filter (containsSub "mega.nz".toList)).head?

/-- Everything after the first occurrence of `pat`, if any. -/
def afterSub (pat : Str) : Str → Option Str
  | [] => if pat.isEmpty then some [] else none
  | c :: rest =>
    if leadsWith pat (c :: rest) then some ((c :: rest).drop pat.length)
    else afterSub pat rest

/-- Modelled from the spec: the host of a URL — what follows `://` up to the
next `/`, `?` or `#`. -/
def hostOf (u : Str) : Str :=
  match afterSub "://".toList u with
  | some r => r.takeWhile (fun c => c != '/' && c != '?' && c != '#')
  | none => u.takeWhile (fun c => c != '/' && c != '?' && c != '#')

/-- Modelled from the spec: the Link Resolver the spec describes — the first
hyperlink whose target HOST matches the storage provider's domain. -/
def specLinkResolver (hrefs : List Str) : Option Str :=
  (hrefs.filter (fun h => hostOf h = "mega.nz".toList)).head?

/-! ### Archive Fetcher (`download_from_mega`, lines 185-223) -/

/-- A file of the destination directory with its modification time. -/
structure FileInfo where
  name : Str
  mtime : Nat
deriving DecidableEq

/-- The outcome of the provider's `download_url` call: a raised exception
with message `e` (`Except.error e`), or a returned file name (possibly
`None`). -/
abbrev FetchOutcome := Except Str (Option Str)

/-- `download_from_mega(mega_url, destination_folder)`.  `listing` is the
content of the destination directory at the time it is consulted (both for
the `os.path.exists` check and for the `.rar` re-scan of the `WinError 32`
recovery path).  Returns the archive's path and base name, or `none`. -/
def download_from_mega (outcome : FetchOutcome) (destination_folder : Str)
    (listing : List FileInfo) : Option (Str × Str) :=
  match outcome with
  | .ok fname? =>
    match fname? with
    | some fn =>
      if !fn.isEmpty && listing.any (fun e => e.name = fn) then
        some (joinPath destination_folder fn, fn)
      else none
    | none => none
  | .error e =>
    if containsSub "WinError 32".toList e then
      match listing.filter (fun e => ".rar".toList.isSuffixOf e.name) with
      | [] => none
      | r :: rs =>
        let latest := rs.foldl (fun b x => if b.mtime < x.mtime then x else b) r
        some (joinPath destination_folder latest.name, latest.name)
    else none

/-! ### Ledger (`load_processed_chapters` / `save_processed_chapter`,
lines 49-68) -/

/-- The Ledger's backing file: `none` when `processed_chapters.txt` does not
exist, otherwise its character content. -/
abbrev LedgerFile := Option Str

/-- `load_processed_chapters()`: a missing file loads as the empty set;
otherwise each line is stripped and the non-empty results form the set.
Python's per-line file iteration is modelled by splitting on newlines. -/
def load_processed_chapters (file : LedgerFile) : List Str :=
  match file with
  | none => []
  | some content => ((splitNl content).map pyStrip).filter (fun l => !l.isEmpty)

/-- `save_processed_chapter(post_url)`: append the URL and a newline to the
backing file (created when missing, since mode `'a'` creates it). -/
def save_processed_chapter (file : LedgerFile) (post_url : Str) : LedgerFile :=
  some (file.getD [] ++ post_url ++ ['\n'])

/-- A whole history of `save_processed_chapter` calls, oldest first. -/
def saveAll (file : LedgerFile) (links : List Str) : LedgerFile :=
  links.foldl save_processed_chapter file

/-! ### Chapter-number derivation (lines 226-250) -/

def natOfDigits (s : Str) : Nat := s.foldl (fun n c => n * 10 + (c.toNat - 48)) 0

/-- `get_chapter_number_from_filename(filename)`: the stem must start with
`c` followed by a non-empty run of digits only. -/
def get_chapter_number_from_filename (filename : Str) : Option Nat :=
  match splitextStem filename with
  | 'c' :: rest =>
    if !rest.isEmpty && rest.all Char.isDigit then some (natOfDigits rest) else none
  | _ => none

/-- `get_chapter_number_from_title(title)`: `re.search(r'\d+', title)` — the
first maximal run of digits, as an integer.  Defined in the source but never
called by the pipeline. -/
def get_chapter_number_from_title : Str → Option Nat
  | [] => none
  | c :: rest =>
    if c.isDigit then some (natOfDigits (c :: rest.takeWhile Char.isDigit))
    else get_chapter_number_from_title rest

/-! ### Pipeline Coordinator (`process_new_chapter`, lines 253-313) -/

/-- Externally visible effects of one pipeline run, in execution order. -/
inductive Ev where
  | downloadedArchive (path : Str)
  | madeExtractDir (dir : Str)
  | extractedArchive (dir : Str)
  | removedArchive (ok : Bool)
  | wrotePdf (path : Str)
  | removedExtractDir (ok : Bool)
  | recordedLedger (link : Str)
deriving DecidableEq

/-- Outcome of `process_new_chapter`: `True`, `False`, or an uncaught
exception escaping to the watcher's catch-all. -/
inductive PipeResult where
  | success
  | failure
  | crash
deriving DecidableEq

/-- Results of the pipeline's effectful collaborators for one run:
the resolved storage link, the fetcher's result, whether `extract_rar`
succeeds, whether the `os.remove` of the archive raises, the listing of the
extraction directory afterwards, the image-open oracle, whether writing the
assembled PDF succeeds, and whether `shutil.rmtree` raises. -/
structure PipeEnv where
  megaLink : Option Str
  download : Option (Str × Str)
  extractOk : Bool
  rmArchiveErr : Bool
  extractListing : List Str
  opens : Str → Bool
  pdfSaveOk : Bool
  rmDirErr : Bool

/-- `f'chapter_{chapter_number}'`. -/
def chapterDirName (ch : Nat) : Str := "chapter_".toList ++ (toString ch).toList

/-- `f'{chapter_number:04d}'`. -/
def pad4 (ch : Nat) : Str :=
  let ds := (toString ch).toList
  List.replicate (4 - ds.length) '0' ++ ds

/-- `f'One Piece - {chapter_number:04d}.pdf'`. -/
def pdfFileName (ch : Nat) : Str := "One Piece - ".toList ++ pad4 ch ++ ".pdf".toList

/-- `process_new_chapter(post_link)` (lines 253-313): runs the stages in
source order and returns the outcome together with the effect trace.
The two unprotected `os.remove` calls (lines 271 and 280) crash the run when
removal raises; the protected ones (lines 284-288, 299-306, step 7) log and
continue.  The PDF is written inside `images_to_pdf` before it returns
`True`, hence `wrotePdf` precedes the cleanup and ledger effects. -/
def process_new_chapter (tempDir outDir : Str) (env : PipeEnv) (post_link : Str) :
    PipeResult × List Ev :=
  match env.megaLink with
  | none => (.failure, [])
  | some _ =>
    match env.download with
    | none => (.failure, [])
    | some (rarPath, rarName) =>
      match get_chapter_number_from_filename rarName with
      | none =>
        if env.rmArchiveErr then (.crash, [.downloadedArchive rarPath])
        else (.failure, [.downloadedArchive rarPath, .removedArchive true])
      | some ch =>
        let dir := joinPath tempDir (chapterDirName ch)
        if env.extractOk then
          let ev0 := [Ev.downloadedArchive rarPath, Ev.madeExtractDir dir,
                      Ev.extractedArchive dir, Ev.removedArchive (!env.rmArchiveErr)]
          match images_to_pdf env.extractListing env.opens env.pdfSaveOk dir with
          | .crash => (.crash, ev0)
          | .failure => (.failure, ev0)
          | .success _ =>
            (.success, ev0 ++ [Ev.wrotePdf (joinPath outDir (pdfFileName ch)),
                               Ev.removedExtractDir (!env.rmDirErr),
                               Ev.recordedLedger post_link])
        else
          if env.rmArchiveErr then
            (.crash, [.downloadedArchive rarPath, .madeExtractDir dir])
          else
            (.failure, [.downloadedArchive rarPath, .madeExtractDir dir,
                        .removedArchive true])

/-- One entry's handling inside `watch_rss_feed` (lines 339-344): the
in-memory processed set gains the link exactly when the pipeline reports
success. -/
def watchStep (tempDir outDir : Str) (env : PipeEnv) (link : Str)
    (processed : List Str) : List Str :=
  if processed.contains link then processed
  else if (process_new_chapter tempDir outDir env link).1 = .success then
    link :: processed
  else processed

/-! ### Non-recursive listing for C10 -/

/-- The first path component of a relative path. -/
def topComponent (p : Str) : Str := p.takeWhile (· != '/')

/-- `os.listdir` of the extraction directory, derived from the set of
relative file paths the extractor produced: only the immediate children
appear — for a nested path that is its first component (a subdirectory
name). -/
def listdirOfTree (tree : List Str) : List Str := (tree.map topComponent).dedup


/-! ### Reference string sort (used to characterize the code's ordering) -/

/-- The directory prefix a join contributes: `dir` itself when it ends in a
separator, otherwise `dir ++ "/"`. -/
def dirPre (dir : Str) : Str := if dir.getLast? = some '/' then dir else dir ++ ['/']

/-- Stable insertion by plain string order of the bare names. -/
def insertName (x : Str) : List Str → List Str
  | [] => [x]
  | y :: ys => if lexLt x y then x :: y :: ys else y :: insertName x ys

def sortNamesFrom : List Str → List Str → List Str
  | acc, [] => acc
  | acc, x :: xs => sortNamesFrom (insertName x acc) xs

/-- Stable sort of names by their own raw string (code-point order). -/
def sortNames (l : List Str) : List Str := sortNamesFrom [] l

/-- The backing-file content a sequence of Ledger appends produces:
each link followed by a newline, in order. -/
def concatLinks : List Str → Str
  | [] => []
  | l :: ls => l ++ '\n' :: concatLinks ls

/-! ## Lemmas: a path separator forces the string fallback of `sort_key` -/

theorem mem_dropWhile_of_not {α : Type} (p : α → Bool) {a : α} {l : List α}
    (h : a ∈ l) (hp : p a = false) : a ∈ l.dropWhile p := by
  induction l with
  | nil => cases h
  | cons c rest ih =>
    rw [List.dropWhile_cons]
    by_cases hc : p c = true
    · simp only [hc, if_true]
      rcases List.mem_cons.mp h with rfl | hm
      · rw [hp] at hc; cases hc
      · exact ih hm
    · simp only [Bool.not_eq_true] at hc
      simp only [hc, Bool.false_eq_true, if_false]
      exact h

theorem slash_mem_pyStrip {s : Str} (h : '/' ∈ s) : '/' ∈ pyStrip s := by
  unfold pyStrip
  exact List.mem_reverse.mpr
    (mem_dropWhile_of_not _ (List.mem_reverse.mpr (mem_dropWhile_of_not _ h (by decide)))
      (by decide))

theorem pyDigitsGo_slash :
    ∀ (l : Str), '/' ∈ l → ∀ usc acc, pyDigitsGo l usc acc = none := by
  intro l
  induction l with
  | nil => intro h; cases h
  | cons c rest ih =>
    intro h usc acc
    simp only [pyDigitsGo]
    by_cases hcd : c.isDigit
    · simp only [hcd, if_true]
      have h2 : '/' ∈ rest := by
        rcases List.mem_cons.mp h with h1 | h1
        · exfalso; rw [← h1] at hcd; exact absurd hcd (by decide)
        · exact h1
      exact ih h2 _ _
    · simp only [hcd, Bool.false_eq_true, if_false]
      by_cases hc : c = '_'
      · have h2 : '/' ∈ rest := by
          rcases List.mem_cons.mp h with h1 | h1
          · rw [hc] at h1; exact absurd h1 (by decide)
          · exact h1
        cases usc with
        | true => simp [hc]
        | false => simp [hc, ih h2]
      · simp [hc]

theorem pyDigitsStart_slash {l : Str} (h : '/' ∈ l) : pyDigitsStart l = none := by
  cases l with
  | nil => cases h
  | cons c rest =>
    simp only [pyDigitsStart]
    by_cases hc : c.isDigit
    · simp only [hc, if_true]
      have h2 : '/' ∈ rest := by
        rcases List.mem_cons.mp h with h1 | h1
        · exfalso; rw [← h1] at hc; exact absurd hc (by decide)
        · exact h1
      exact pyDigitsGo_slash rest h2 _ _
    · simp [hc]

theorem pyInt_slash {s : Str} (h : '/' ∈ s) : pyInt s = none := by
  have hm := slash_mem_pyStrip h
  unfold pyInt
  cases hst : pyStrip s with
  | nil => rfl
  | cons c r =>
    rw [hst] at hm
    by_cases hp : c = '+'
    · subst hp
      have h2 : '/' ∈ r := by
        rcases List.mem_cons.mp hm with h1 | h1
        · exact absurd h1 (by decide)
        · exact h1
      simp [pyDigitsStart_slash h2]
    · by_cases hq : c = '-'
      · subst hq
        have h2 : '/' ∈ r := by
          rcases List.mem_cons.mp hm with h1 | h1
          · exact absurd h1 (by decide)
          · exact h1
        simp [hp, pyDigitsStart_slash h2]
      · simp [hp, hq, pyDigitsStart_slash hm]

theorem consHead_ne_nil (c : Char) (l : List Str) : consHead c l ≠ [] := by
  cases l <;> simp [consHead]

theorem splitSub_nil : splitSub [] = [[]] := rfl

theorem splitSub_sep (rest : Str) : splitSub ('_' :: 'p' :: rest) = [] :: splitSub rest := by
  simp [splitSub]

theorem splitSub_usc_nil : splitSub ['_'] = [['_']] := by
  simp [splitSub]

theorem splitSub_usc_ne {d : Char} (hd : d ≠ 'p') (rest2 : Str) :
    splitSub ('_' :: d :: rest2) = consHead '_' (splitSub (d :: rest2)) := by
  simp [splitSub, hd]

theorem splitSub_cons_ne {c : Char} (hc : c ≠ '_') (rest : Str) :
    splitSub (c :: rest) = consHead c (splitSub rest) := by
  cases rest with
  | nil => rw [splitSub.eq_2]; simp [hc, consHead]
  | cons d rest2 => rw [splitSub.eq_3]; simp [hc]

theorem splitSub_ne_nil : ∀ s : Str, splitSub s ≠ [] := by
  intro s
  cases s with
  | nil => simp [splitSub]
  | cons c rest =>
    by_cases hc : c = '_'
    · subst hc
      cases rest with
      | nil => rw [splitSub_usc_nil]; simp
      | cons d rest2 =>
        by_cases hd : d = 'p'
        · subst hd; rw [splitSub_sep]; simp
        · rw [splitSub_usc_ne hd]; exact consHead_ne_nil _ _
    · rw [splitSub_cons_ne hc]; exact consHead_ne_nil _ _

theorem splitSub_singleton : ∀ (s : Str), ∀ (b : Str), splitSub s = [b] → s = b := by
  intro s
  induction s with
  | nil =>
    intro b h
    rw [splitSub_nil] at h
    injection h
  | cons c rest ih =>
    intro b h
    by_cases hc : c = '_'
    · subst hc
      cases rest with
      | nil =>
        rw [splitSub_usc_nil] at h
        injection h
      | cons d rest2 =>
        by_cases hd : d = 'p'
        · subst hd
          rw [splitSub_sep] at h
          injection h with _ h2
          exact absurd h2 (splitSub_ne_nil rest2)
        · rw [splitSub_usc_ne hd] at h
          cases hsp : splitSub (d :: rest2) with
          | nil => exact absurd hsp (splitSub_ne_nil _)
          | cons hh tt =>
            rw [hsp] at h
            simp only [consHead] at h
            injection h with h1 h2
            subst h2
            have hr : (d :: rest2) = hh := ih hh hsp
            rw [← h1, ← hr]
    · rw [splitSub_cons_ne hc] at h
      cases hsp : splitSub rest with
      | nil => exact absurd hsp (splitSub_ne_nil _)
      | cons hh tt =>
        rw [hsp] at h
        simp only [consHead] at h
        injection h with h1 h2
        subst h2
        have hr : rest = hh := ih hh hsp
        rw [← h1, ← hr]

theorem splitSub_pair_slash :
    ∀ (s : Str), ∀ (a b : Str), '/' ∈ s → splitSub s = [a, b] → '/' ∈ a ∨ '/' ∈ b := by
  intro s
  induction s with
  | nil => intro a b h _; cases h
  | cons c rest ih =>
    intro a b hmem h
    by_cases hc : c = '_'
    · subst hc
      cases rest with
      | nil =>
        rw [splitSub_usc_nil] at h
        injection h with _ h2
        cases h2
      | cons d rest2 =>
        by_cases hd : d = 'p'
        · subst hd
          rw [splitSub_sep] at h
          injection h with _ h2
          have hr := splitSub_singleton rest2 b h2
          right
          have h3 : '/' ∈ rest2 := by
            rcases List.mem_cons.mp hmem with h1 | h1
            · exact absurd h1 (by decide)
            · rcases List.mem_cons.mp h1 with h4 | h4
              · exact absurd h4 (by decide)
              · exact h4
          rw [← hr]
          exact h3
        · rw [splitSub_usc_ne hd] at h
          cases hsp : splitSub (d :: rest2) with
          | nil => exact absurd hsp (splitSub_ne_nil _)
          | cons hh tt =>
            rw [hsp] at h
            simp only [consHead] at h
            injection h with h1 h2
            subst h2
            have hm2 : '/' ∈ d :: rest2 := by
              rcases List.mem_cons.mp hmem with h3 | h3
              · exact absurd h3 (by decide)
              · exact h3
            rcases ih hh b hm2 hsp with hL | hR
            · left; rw [← h1]; exact List.mem_cons_of_mem _ hL
            · right; exact hR
    · rw [splitSub_cons_ne hc] at h
      cases hsp : splitSub rest with
      | nil => exact absurd hsp (splitSub_ne_nil _)
      | cons hh tt =>
        rw [hsp] at h
        simp only [consHead] at h
        injection h with h1 h2
        subst h2
        rcases List.mem_cons.mp hmem with h3 | h3
        · left; rw [← h1, h3]; exact List.mem_cons_self _ _
        · rcases ih hh b h3 hsp with hL | hR
          · left; rw [← h1]; exact List.mem_cons_of_mem _ hL
          · right; exact hR

theorem splitextStem_slash {p : Str} (h : '/' ∈ p) : '/' ∈ splitextStem p := by
  unfold splitextStem
  split
  · rename_i rest2 heq
    split
    · apply List.mem_reverse.mpr
      have hrev : '/' ∈ p.reverse := List.mem_reverse.mpr h
      have hsplit : '/' ∈ p.reverse.takeWhile extKeep ++ p.reverse.dropWhile extKeep := by
        rw [List.takeWhile_append_dropWhile]
        exact hrev
      rcases List.mem_append.mp hsplit with h1 | h1
      · have := List.mem_takeWhile_imp h1
        exact absurd this (by decide)
      · rw [heq] at h1
        rcases List.mem_cons.mp h1 with h2 | h2
        · exact absurd h2 (by decide)
        · exact h2
    · exact h
  · exact h

theorem sort_key_slash {p : Str} (h : '/' ∈ p) : sort_key p = .str p := by
  unfold sort_key
  split
  · rename_i a b heq
    have hst := splitextStem_slash h
    rcases splitSub_pair_slash _ a b hst heq with hA | hB
    · have hfa : '/' ∈ a.filter (· ≠ 'c') := List.mem_filter.mpr ⟨hA, by decide⟩
      rw [pyInt_slash hfa]
    · rw [pyInt_slash hB]
      cases pyInt (a.filter (· ≠ 'c')) <;> rfl
  · rfl

/-! ## Lemmas: joins and lexicographic order -/

theorem head_ne_slash_of_not_mem {n : Str} (h : '/' ∉ n) : n.head? ≠ some '/' := by
  intro heq
  apply h
  cases n with
  | nil => simp at heq
  | cons c cs =>
    simp only [List.head?] at heq
    injection heq with h1
    rw [h1]
    exact List.mem_cons_self _ _

theorem joinPath_slash {dir : Str} (hd : dir ≠ []) (base : Str) :
    '/' ∈ joinPath dir base := by
  unfold joinPath
  by_cases hb : base.head? = some '/'
  · rw [if_pos hb]
    cases base with
    | nil => simp at hb
    | cons b bs =>
      simp only [List.head?] at hb
      injection hb with h1
      rw [h1]
      exact List.mem_cons_self _ _
  · rw [if_neg hb]
    by_cases hl : dir.getLast? = some '/'
    · rw [if_pos hl]
      apply List.mem_append.mpr
      left
      rw [List.getLast?_eq_getLast_of_ne_nil hd] at hl
      injection hl with h1
      rw [← h1]
      exact List.getLast_mem hd
    · rw [if_neg hl, if_neg hd]
      exact List.mem_append.mpr (Or.inr (List.mem_cons_self _ _))

theorem joinPath_pre {dir : Str} (hd : dir ≠ []) {base : Str}
    (hb : base.head? ≠ some '/') : joinPath dir base = dirPre dir ++ base := by
  unfold joinPath dirPre
  rw [if_neg hb]
  by_cases hl : dir.getLast? = some '/'
  · rw [if_pos hl, if_pos hl]
  · rw [if_neg hl, if_neg hd, if_neg hl, List.append_assoc]
    rfl

theorem lexLt_cons_iff {x y : Char} {as bs : Str} :
    lexLt (x :: as) (y :: bs) = true ↔ x < y ∨ (x = y ∧ lexLt as bs = true) := by
  by_cases h1 : x < y
  · simp [lexLt, h1]
  · by_cases h2 : y < x
    · simp only [lexLt, if_neg h1, if_pos h2]
      constructor
      · intro hF; cases hF
      · rintro (h | ⟨rfl, _⟩)
        · exact absurd h h1
        · exact absurd h2 (lt_irrefl _)
    · have hxy : x = y := le_antisymm (le_of_not_lt h2) (le_of_not_lt h1)
      subst hxy
      simp [lexLt, h1]

theorem lexLt_asymm : ∀ {a b : Str}, lexLt a b = true → lexLt b a = false := by
  intro a
  induction a with
  | nil =>
    intro b h
    cases b with
    | nil => cases h
    | cons c cs => rfl
  | cons x as ih =>
    intro b h
    cases b with
    | nil => cases h
    | cons y bs =>
      rw [← Bool.not_eq_true]
      intro hcon
      rcases lexLt_cons_iff.mp h with h1 | ⟨rfl, h2⟩
      · rcases lexLt_cons_iff.mp hcon with h3 | ⟨heq, _⟩
        · exact absurd (lt_trans h1 h3) (lt_irrefl _)
        · rw [heq] at h1; exact absurd h1 (lt_irrefl _)
      · rcases lexLt_cons_iff.mp hcon with h3 | ⟨_, h4⟩
        · exact absurd h3 (lt_irrefl _)
        · rw [ih h2] at h4; cases h4
  
theorem lexLt_trans : ∀ {a b c : Str},
    lexLt a b = true → lexLt b c = true → lexLt a c = true := by
  intro a
  induction a with
  | nil =>
    intro b c h1 h2
    cases b with
    | nil => cases h1
    | cons y bs =>
      cases c with
      | nil => cases h2
      | cons z cs => rfl
  | cons x as ih =>
    intro b c h1 h2
    cases b with
    | nil => cases h1
    | cons y bs =>
      cases c with
      | nil => cases h2
      | cons z cs =>
        rcases lexLt_cons_iff.mp h1 with hxy | ⟨rfl, h1b⟩
        · rcases lexLt_cons_iff.mp h2 with hyz | ⟨rfl, _⟩
          · exact lexLt_cons_iff.mpr (Or.inl (lt_trans hxy hyz))
          · exact lexLt_cons_iff.mpr (Or.inl hxy)
        · rcases lexLt_cons_iff.mp h2 with hyz | ⟨rfl, h2b⟩
          · exact lexLt_cons_iff.mpr (Or.inl hyz)
          · exact lexLt_cons_iff.mpr (Or.inr ⟨rfl, ih h1b h2b⟩)

theorem lexLt_append_left : ∀ (p a b : Str), lexLt (p ++ a) (p ++ b) = lexLt a b := by
  intro p
  induction p with
  | nil => intro a b; rfl
  | cons c cs ih =>
    intro a b
    simp only [List.cons_append]
    show lexLt (c :: (cs ++ a)) (c :: (cs ++ b)) = _
    simp only [lexLt, if_neg (lt_irrefl c)]
    exact ih a b

/-! ## Lemmas: the code's sort reduces to a stable string sort -/

theorem insertName_perm (x : Str) : ∀ l : List Str, (insertName x l).Perm (x :: l) := by
  intro l
  induction l with
  | nil => simp [insertName]
  | cons y ys ih =>
    simp only [insertName]
    by_cases h : lexLt x y = true
    · rw [if_pos h]
    · rw [if_neg h]
      exact (ih.cons y).trans (List.Perm.swap x y ys)

theorem mem_insertName {x y : Str} {l : List Str} :
    y ∈ insertName x l ↔ y = x ∨ y ∈ l := by
  rw [(insertName_perm x l).mem_iff, List.mem_cons]

theorem sortNamesFrom_perm : ∀ (l acc : List Str),
    (sortNamesFrom acc l).Perm (acc ++ l) := by
  intro l
  induction l with
  | nil => intro acc; simp [sortNamesFrom]
  | cons x xs ih =>
    intro acc
    simp only [sortNamesFrom]
    have h1 := ih (insertName x acc)
    have h2 : (insertName x acc ++ xs).Perm ((x :: acc) ++ xs) :=
      (insertName_perm x acc).append_right xs
    have h3 : ((x :: acc) ++ xs).Perm (acc ++ x :: xs) := by
      simp only [List.cons_append]
      exact List.perm_middle.symm
    exact h1.trans (h2.trans h3)

theorem sortNames_perm (l : List Str) : (sortNames l).Perm l := by
  simpa [sortNames] using sortNamesFrom_perm l []

theorem sortNames_eq_nil_iff {l : List Str} : sortNames l = [] ↔ l = [] := by
  constructor
  · intro h
    have hp := sortNames_perm l
    rw [h] at hp
    exact hp.symm.eq_nil
  · intro h
    subst h
    rfl

theorem insertName_pairwise {x : Str} {l : List Str}
    (h : List.Pairwise (fun a b => lexLt b a = false) l) :
    List.Pairwise (fun a b => lexLt b a = false) (insertName x l) := by
  induction l with
  | nil => simp [insertName]
  | cons y ys ih =>
    rcases List.pairwise_cons.mp h with ⟨hy, hys⟩
    by_cases hxy : lexLt x y = true
    · simp only [insertName, if_pos hxy]
      apply List.pairwise_cons.mpr
      refine ⟨?_, h⟩
      intro z hz
      rcases List.mem_cons.mp hz with rfl | hz2
      · exact lexLt_asymm hxy
      · rw [← Bool.not_eq_true]
        intro hzx
        have hzy := lexLt_trans hzx hxy
        rw [hy z hz2] at hzy
        cases hzy
    · simp only [insertName, if_neg hxy]
      simp only [Bool.not_eq_true] at hxy
      apply List.pairwise_cons.mpr
      refine ⟨?_, ih hys⟩
      intro z hz
      rcases mem_insertName.mp hz with rfl | hz2
      · exact hxy
      · exact hy z hz2

theorem sortNamesFrom_pairwise : ∀ (l acc : List Str),
    List.Pairwise (fun a b => lexLt b a = false) acc →
    List.Pairwise (fun a b => lexLt b a = false) (sortNamesFrom acc l) := by
  intro l
  induction l with
  | nil => intro acc h; exact h
  | cons x xs ih => intro acc h; exact ih _ (insertName_pairwise h)

theorem sortNames_pairwise (l : List Str) :
    List.Pairwise (fun a b => lexLt b a = false) (sortNames l) :=
  sortNamesFrom_pairwise l [] List.Pairwise.nil

theorem insertSorted_join {dir : Str} (hd : dir ≠ []) {x : Str}
    (hx : x.head? ≠ some '/') :
    ∀ {acc : List Str}, (∀ y ∈ acc, y.head? ≠ some '/') →
    insertSorted sort_key (joinPath dir x) (acc.map (joinPath dir)) =
      some ((insertName x acc).map (joinPath dir)) := by
  intro acc
  induction acc with
  | nil => intro _; simp [insertSorted, insertName]
  | cons y ys ih =>
    intro hacc
    have hy := hacc y (List.mem_cons_self _ _)
    have hys : ∀ z ∈ ys, z.head? ≠ some '/' :=
      fun z hz => hacc z (List.mem_cons_of_mem _ hz)
    simp only [List.map_cons, insertSorted]
    rw [sort_key_slash (joinPath_slash hd x), sort_key_slash (joinPath_slash hd y)]
    simp only [keyLt]
    have hkey : lexLt (joinPath dir x) (joinPath dir y) = lexLt x y := by
      rw [joinPath_pre hd hx, joinPath_pre hd hy, lexLt_append_left]
    rw [hkey]
    by_cases hlt : lexLt x y = true
    · rw [hlt]
      simp [insertName, hlt]
    · simp only [Bool.not_eq_true] at hlt
      rw [hlt, ih hys]
      simp [insertName, hlt]

theorem pySortedFrom_join {dir : Str} (hd : dir ≠ []) :
    ∀ (names : List Str), (∀ n ∈ names, n.head? ≠ some '/') →
    ∀ (acc : List Str), (∀ y ∈ acc, y.head? ≠ some '/') →
    pySortedFrom sort_key (acc.map (joinPath dir)) (names.map (joinPath dir)) =
      some ((sortNamesFrom acc names).map (joinPath dir)) := by
  intro names
  induction names with
  | nil => intro _ acc _; simp [pySortedFrom, sortNamesFrom]
  | cons x xs ih =>
    intro hn acc hacc
    have hx := hn x (List.mem_cons_self _ _)
    have hxs : ∀ n ∈ xs, n.head? ≠ some '/' :=
      fun z hz => hn z (List.mem_cons_of_mem _ hz)
    simp only [List.map_cons, pySortedFrom]
    rw [insertSorted_join hd hx hacc]
    have hacc2 : ∀ y ∈ insertName x acc, y.head? ≠ some '/' := by
      intro y hyy
      rcases mem_insertName.mp hyy with rfl | hy2
      · exact hx
      · exact hacc y hy2
    exact ih hxs (insertName x acc) hacc2

theorem pySorted_join {dir : Str} (hd : dir ≠ []) {names : List Str}
    (hn : ∀ n ∈ names, n.head? ≠ some '/') :
    pySorted sort_key (names.map (joinPath dir)) =
      some ((sortNames names).map (joinPath dir)) := by
  have h := pySortedFrom_join hd names hn [] (by intro y hy; cases hy)
  simpa [pySorted, sortNames] using h

/-- The behaviour of `images_to_pdf` on a real invocation (non-empty folder
path, separator-free listing entries): select by extension, sort by the raw
string of the joined path, keep the images that open. -/
theorem images_to_pdf_eq {listing : List Str} {opens : Str → Bool} {saveOk : Bool}
    {dir : Str} (hd : dir ≠ []) (hn : ∀ n ∈ listing, '/' ∉ n) :
    images_to_pdf listing opens saveOk dir =
      if listing.filter hasImageExt = [] then .failure
      else if ((sortNames (listing.filter hasImageExt)).map (joinPath dir)).filter opens
          = [] then .failure
      else if saveOk then .success
        (((sortNames (listing.filter hasImageExt)).map (joinPath dir)).filter opens)
      else .failure := by
  unfold images_to_pdf
  have hn2 : ∀ n ∈ listing.filter hasImageExt, n.head? ≠ some '/' := fun n hnn =>
    head_ne_slash_of_not_mem (hn n (List.mem_filter.mp hnn).1)
  simp only [pySorted_join hd hn2]
  by_cases h1 : listing.filter hasImageExt = []
  · rw [if_pos h1, h1]
    rfl
  · rw [if_neg h1]
    have hsn : sortNames (listing.filter hasImageExt) ≠ [] :=
      fun h => h1 (sortNames_eq_nil_iff.mp h)
    have hmap : (sortNames (listing.filter hasImageExt)).map (joinPath dir) ≠ [] :=
      fun h => hsn (List.map_eq_nil_iff.mp h)
    have hie : ((sortNames (listing.filter hasImageExt)).map (joinPath dir)).isEmpty
        = false := by
      cases hie2 : ((sortNames (listing.filter hasImageExt)).map (joinPath dir)).isEmpty
      · rfl
      · exact absurd (List.isEmpty_iff.mp hie2) hmap
    simp only [hie, Bool.false_eq_true, if_false]
    by_cases h2 : ((sortNames (listing.filter hasImageExt)).map (joinPath dir)).filter
        opens = []
    · rw [if_pos h2, h2]
      rfl
    · rw [if_neg h2]
      have hie3 : (((sortNames (listing.filter hasImageExt)).map (joinPath dir)).filter
          opens).isEmpty = false := by
        cases hie4 : (((sortNames (listing.filter hasImageExt)).map
            (joinPath dir)).filter opens).isEmpty
        · rfl
        · exact absurd (List.isEmpty_iff.mp hie4) h2
      simp only [hie3, Bool.false_eq_true, if_false]

/-! ## Claims about the Document Assembler -/

/-- C2: the claim "pages are ordered ascending by (chapter, page)" fails on
the code.  `sort_key` is applied to the joined path, whose `/` always makes
the numeric parse raise `ValueError`, so every key falls back to the raw
path string: with folder `d` and files `c1_p2.jpg`, `c1_p10.jpg` (all
readable), the produced page order is `p10` before `p2` — not the ascending
(chapter, page) order `[c1_p2, c1_p10]` promised by the spec and by the
source's own comment. -/
theorem c2_page_order_bug :
    images_to_pdf ["c1_p2.jpg".toList, "c1_p10.jpg".toList] (fun _ => true) true
        "d".toList
        = PdfResult.success ["d/c1_p10.jpg".toList, "d/c1_p2.jpg".toList] ∧
    specPageOrder ["c1_p2.jpg".toList, "c1_p10.jpg".toList]
        = ["c1_p2.jpg".toList, "c1_p10.jpg".toList] ∧
    ["d/c1_p10.jpg".toList, "d/c1_p2.jpg".toList] ≠
      (specPageOrder ["c1_p2.jpg".toList, "c1_p10.jpg".toList]).map
        (joinPath "d".toList) :=
  ⟨by decide, by decide, by decide⟩

/-- C3: on every real input directory (non-empty folder path, listing names
free of separators, matching and non-matching names mixed arbitrarily) the
Document Assembler's sort cannot raise on mixed key types — every key is the
joined path's raw string — and it totally orders the selected files by the
plain string order of the names themselves (a stable sort: a permutation,
pairwise non-descending); when at least one selected image loads, a document
is still produced. -/
theorem c3_mixed_names_total_order (listing : List Str) (opens : Str → Bool)
    (dir : Str) (hd : dir ≠ []) (hn : ∀ n ∈ listing, '/' ∉ n) :
    (∀ saveOk, images_to_pdf listing opens saveOk dir ≠ PdfResult.crash) ∧
    pySorted sort_key ((listing.filter hasImageExt).map (joinPath dir)) =
      some ((sortNames (listing.filter hasImageExt)).map (joinPath dir)) ∧
    (sortNames (listing.filter hasImageExt)).Perm (listing.filter hasImageExt) ∧
    List.Pairwise (fun a b => lexLt b a = false)
      (sortNames (listing.filter hasImageExt)) ∧
    (((sortNames (listing.filter hasImageExt)).map (joinPath dir)).filter opens ≠ [] →
      ∃ pages, images_to_pdf listing opens true dir = PdfResult.success pages) := by
  have hn2 : ∀ n ∈ listing.filter hasImageExt, n.head? ≠ some '/' := fun n hnn =>
    head_ne_slash_of_not_mem (hn n (List.mem_filter.mp hnn).1)
  refine ⟨?_, pySorted_join hd hn2, sortNames_perm _, sortNames_pairwise _, ?_⟩
  · intro saveOk
    rw [images_to_pdf_eq hd hn]
    split
    · simp
    · split
      · simp
      · split <;> simp
  · intro hne
    rw [images_to_pdf_eq hd hn]
    have h1 : listing.filter hasImageExt ≠ [] := by
      intro h
      apply hne
      rw [h]
      rfl
    rw [if_neg h1, if_neg hne]
    exact ⟨_, rfl⟩

theorem c3_witness :
    images_to_pdf ["zcover.jpg".toList, "c1_p2.jpg".toList] (fun _ => true) true
      "d".toList ≠ PdfResult.crash :=
  (c3_mixed_names_total_order ["zcover.jpg".toList, "c1_p2.jpg".toList]
    (fun _ => true) "d".toList (by decide) (by decide)).1 true

/-- C4 counterexample: the claim's "exactly when" forgets the save error
path.  A directory with one recognized image that opens still yields
failure in the run where `images[0].save(...)` raises — the exception is
caught at `src/main.py` lines 154-156 and the function returns `False`,
possibly leaving a partially written file — whereas the claim requires a
document to be written whenever at least one image opens.  The same input
with the save succeeding shows the save outcome is the only difference. -/
theorem c4_save_error_counterexample :
    ["c1_p1.jpg".toList].filter hasImageExt = ["c1_p1.jpg".toList] ∧
    images_to_pdf ["c1_p1.jpg".toList] (fun _ => true) false "d".toList
      = PdfResult.failure ∧
    images_to_pdf ["c1_p1.jpg".toList] (fun _ => true) true "d".toList
      = PdfResult.success ["d/c1_p1.jpg".toList] :=
  ⟨by decide, by decide, by decide⟩

/-- C4 amended: the Document Assembler returns failure exactly when no
listed name carries a recognized image extension, or every selected image
fails to open, or writing the assembled document raises (that exception is
caught, logged, and turned into failure — possibly leaving a partial file).
In the first two cases the outcome is independent of the save oracle: no
save is ever attempted, so nothing is written.  When at least one image
opens and the save succeeds, the document holds exactly the loaded images,
in the code's sorted order. -/
theorem c4_failure_characterization (listing : List Str) (opens : Str → Bool)
    (saveOk : Bool) (dir : Str) (hd : dir ≠ []) (hn : ∀ n ∈ listing, '/' ∉ n) :
    (images_to_pdf listing opens saveOk dir = PdfResult.failure ↔
      listing.filter hasImageExt = [] ∨
      (∀ p ∈ (sortNames (listing.filter hasImageExt)).map (joinPath dir),
        opens p = false) ∨ saveOk = false) ∧
    ((listing.filter hasImageExt = [] ∨
      ∀ p ∈ (sortNames (listing.filter hasImageExt)).map (joinPath dir),
        opens p = false) →
      ∀ b, images_to_pdf listing opens b dir = PdfResult.failure) ∧
    ((∃ p ∈ (sortNames (listing.filter hasImageExt)).map (joinPath dir),
        opens p = true) → saveOk = true →
      images_to_pdf listing opens saveOk dir = PdfResult.success
        (((sortNames (listing.filter hasImageExt)).map (joinPath dir)).filter opens)) := by
  refine ⟨?_, ?_, ?_⟩
  · rw [images_to_pdf_eq hd hn]
    by_cases h1 : listing.filter hasImageExt = []
    · rw [if_pos h1]
      simp [h1]
    · rw [if_neg h1]
      by_cases h2 : ((sortNames (listing.filter hasImageExt)).map
          (joinPath dir)).filter opens = []
      · rw [if_pos h2]
        simp only [true_iff]
        right; left
        intro p hp
        have := List.filter_eq_nil_iff.mp h2 p hp
        cases ho : opens p
        · rfl
        · exact absurd ho this
      · rw [if_neg h2]
        cases saveOk with
        | false => simp
        | true =>
          rw [if_pos rfl]
          constructor
          · intro h; cases h
          · rintro (h3 | h3 | h3)
            · exact absurd h3 h1
            · exfalso
              apply h2
              apply List.filter_eq_nil_iff.mpr
              intro p hp
              rw [h3 p hp]
              simp
            · cases h3
  · intro hcond b
    rw [images_to_pdf_eq hd hn]
    rcases hcond with h1 | h2
    · rw [if_pos h1]
    · by_cases h1 : listing.filter hasImageExt = []
      · rw [if_pos h1]
      · rw [if_neg h1]
        have hfil : ((sortNames (listing.filter hasImageExt)).map
            (joinPath dir)).filter opens = [] := by
          apply List.filter_eq_nil_iff.mpr
          intro p hp
          rw [h2 p hp]
          simp
        rw [if_pos hfil]
  · rintro ⟨p, hp, hop⟩ hsave
    subst hsave
    rw [images_to_pdf_eq hd hn]
    have h1 : listing.filter hasImageExt ≠ [] := by
      intro h
      rw [h] at hp
      cases hp
    have h2 : ((sortNames (listing.filter hasImageExt)).map
        (joinPath dir)).filter opens ≠ [] := by
      intro h
      have := List.filter_eq_nil_iff.mp h p hp
      exact this hop
    rw [if_neg h1, if_neg h2, if_pos rfl]

theorem c4_witness :
    images_to_pdf ["c1_p1.jpg".toList, "c1_p2.jpg".toList]
        (fun p => p ≠ "d/c1_p2.jpg".toList) true "d".toList
      = PdfResult.success ["d/c1_p1.jpg".toList] := by
  have h := (c4_failure_characterization ["c1_p1.jpg".toList, "c1_p2.jpg".toList]
    (fun p => p ≠ "d/c1_p2.jpg".toList) true "d".toList (by decide) (by decide)).2.2
    ⟨"d/c1_p1.jpg".toList, by decide, by decide⟩ rfl
  rw [h]
  decide

theorem slash_not_mem_topComponent (p : Str) : '/' ∉ topComponent p := by
  intro h
  exact absurd (List.mem_takeWhile_imp h) (by decide)

theorem mem_listdirOfTree {tree : List Str} {n : Str} (h : n ∈ listdirOfTree tree) :
    ∃ p ∈ tree, n = topComponent p := by
  unfold listdirOfTree at h
  rcases List.mem_map.mp (List.mem_dedup.mp h) with ⟨p, hp, heq⟩
  exact ⟨p, hp, heq.symm⟩

/-- C10: the Document Assembler's listing is non-recursive.  Every page of a
produced document is the join of a top-level (separator-free) listing entry,
and never equals the path of an extracted file that sits in a subdirectory;
when no top-level entry carries an image extension (all images nested, and
no subdirectory named like an image), the assembler fails with zero valid
images. -/
theorem c10_top_level_only (tree : List Str) (opens : Str → Bool) (saveOk : Bool)
    (dir : Str) (hd : dir ≠ []) (htree : ∀ p ∈ tree, p.head? ≠ some '/') :
    (∀ pages, images_to_pdf (listdirOfTree tree) opens saveOk dir = PdfResult.success pages →
      ∀ q ∈ pages, (∃ n ∈ listdirOfTree tree, '/' ∉ n ∧ q = joinPath dir n) ∧
        ∀ p ∈ tree, '/' ∈ p → q ≠ joinPath dir p) ∧
    ((∀ p ∈ tree, hasImageExt (topComponent p) = false) →
      images_to_pdf (listdirOfTree tree) opens saveOk dir = PdfResult.failure) := by
  have hn : ∀ n ∈ listdirOfTree tree, '/' ∉ n := by
    intro n hnn
    rcases mem_listdirOfTree hnn with ⟨p, _, rfl⟩
    exact slash_not_mem_topComponent p
  constructor
  · intro pages hsucc q hq
    rw [images_to_pdf_eq hd hn] at hsucc
    by_cases h1 : (listdirOfTree tree).filter hasImageExt = []
    · rw [if_pos h1] at hsucc; cases hsucc
    · rw [if_neg h1] at hsucc
      by_cases h2 : ((sortNames ((listdirOfTree tree).filter hasImageExt)).map
          (joinPath dir)).filter opens = []
      · rw [if_pos h2] at hsucc; cases hsucc
      · rw [if_neg h2] at hsucc
        cases saveOk with
        | false =>
          rw [if_neg (by decide)] at hsucc
          cases hsucc
        | true =>
        rw [if_pos rfl] at hsucc
        injection hsucc with hpg
        rw [← hpg] at hq
        have hq2 := List.mem_of_mem_filter hq
        rcases List.mem_map.mp hq2 with ⟨n, hnsort, heq⟩
        have hnfiles := (sortNames_perm _).mem_iff.mp hnsort
        have hnlist := List.mem_of_mem_filter hnfiles
        have hnslash := hn n hnlist
        refine ⟨⟨n, hnlist, hnslash, heq.symm⟩, ?_⟩
        intro p hp hps heqq
        rw [← heq] at heqq
        have hnp : n.head? ≠ some '/' := head_ne_slash_of_not_mem hnslash
        have hpp : p.head? ≠ some '/' := htree p hp
        rw [joinPath_pre hd hnp, joinPath_pre hd hpp] at heqq
        have hcancel := List.append_cancel_left heqq
        rw [← hcancel] at hps
        exact hnslash hps
  · intro hext
    have h1 : (listdirOfTree tree).filter hasImageExt = [] := by
      apply List.filter_eq_nil_iff.mpr
      intro n hnn
      rcases mem_listdirOfTree hnn with ⟨p, hp, rfl⟩
      rw [hext p hp]
      simp
    rw [images_to_pdf_eq hd hn, if_pos h1]

theorem c10_witness :
    images_to_pdf (listdirOfTree ["sub/c1_p1.jpg".toList]) (fun _ => true) true
      "d".toList = PdfResult.failure :=
  (c10_top_level_only ["sub/c1_p1.jpg".toList] (fun _ => true) true "d".toList
    (by decide) (by decide)).2 (by decide)

/-! ## Claims about the Ledger -/

theorem splitNl_append {l : Str} (hl : '\n' ∉ l) (r : Str) :
    splitNl (l ++ '\n' :: r) = l :: splitNl r := by
  induction l with
  | nil => simp [splitNl]
  | cons c cs ih =>
    have hc : c ≠ '\n' := fun h => hl (h ▸ List.mem_cons_self _ _)
    have hcs : '\n' ∉ cs := fun h => hl (List.mem_cons_of_mem _ h)
    simp only [List.cons_append, splitNl, if_neg hc]
    show consHead c (splitNl (cs ++ '\n' :: r)) = (c :: cs) :: splitNl r
    rw [ih hcs]
    rfl

theorem saveAll_some (links : List Str) : ∀ c : Str,
    saveAll (some c) links = some (c ++ concatLinks links) := by
  induction links with
  | nil => intro c; simp [saveAll, concatLinks]
  | cons l ls ih =>
    intro c
    simp only [saveAll, List.foldl_cons] at ih ⊢
    have hsave : save_processed_chapter (some c) l = some (c ++ l ++ ['\n']) := rfl
    rw [hsave, ih]
    simp [concatLinks]

theorem saveAll_none_cons (l : Str) (ls : List Str) :
    saveAll none (l :: ls) = some (concatLinks (l :: ls)) := by
  simp only [saveAll, List.foldl_cons]
  have hsave : save_processed_chapter none l = some (l ++ ['\n']) := rfl
  rw [hsave]
  have h := saveAll_some ls (l ++ ['\n'])
  simp only [saveAll] at h
  rw [h]
  simp [concatLinks]

theorem load_concatLinks : ∀ links : List Str,
    (∀ l ∈ links, l ≠ [] ∧ '\n' ∉ l ∧ pyStrip l = l) →
    load_processed_chapters (some (concatLinks links)) = links := by
  intro links
  induction links with
  | nil => intro _; rfl
  | cons l ls ih =>
    intro h
    obtain ⟨hne, hnl, hstrip⟩ := h l (List.mem_cons_self _ _)
    have htail : ∀ x ∈ ls, x ≠ [] ∧ '\n' ∉ x ∧ pyStrip x = x :=
      fun x hx => h x (List.mem_cons_of_mem _ hx)
    show load_processed_chapters (some (l ++ '\n' :: concatLinks ls)) = l :: ls
    simp only [load_processed_chapters]
    rw [splitNl_append hnl]
    simp only [List.map_cons, hstrip]
    have hemp : l.isEmpty = false := by
      cases l with
      | nil => exact absurd rfl hne
      | cons a as => rfl
    rw [List.filter_cons]
    simp only [hemp, Bool.not_false, if_pos]
    have hrec := ih htail
    simp only [load_processed_chapters] at hrec
    rw [hrec]

/-- C5: the Ledger round-trips.  For every sequence of recorded links (each
non-empty, newline-free, without surrounding whitespace), reloading the
backing file produced by the appends yields exactly those links —
membership holds for each recorded link and fails for any other — and a
missing backing file loads as the empty set. -/
theorem c5_ledger_roundtrip (links : List Str)
    (h : ∀ l ∈ links, l ≠ [] ∧ '\n' ∉ l ∧ pyStrip l = l) :
    load_processed_chapters none = [] ∧
    ∀ x : Str, x ∈ load_processed_chapters (saveAll none links) ↔ x ∈ links := by
  refine ⟨rfl, ?_⟩
  intro x
  cases links with
  | nil => simp [saveAll, load_processed_chapters]
  | cons l ls => rw [saveAll_none_cons, load_concatLinks (l :: ls) h]

theorem c5_witness :
    ("u1".toList ∈
      load_processed_chapters (saveAll none ["u1".toList, "u2".toList])) ∧
    ¬ ("zz".toList ∈
      load_processed_chapters (saveAll none ["u1".toList, "u2".toList])) := by
  constructor
  · exact ((c5_ledger_roundtrip ["u1".toList, "u2".toList] (by decide)).2
      "u1".toList).mpr (by decide)
  · intro hm
    exact absurd (((c5_ledger_roundtrip ["u1".toList, "u2".toList] (by decide)).2
      "zz".toList).mp hm) (by decide)

/-! ## Claims about the Link Resolver -/

/-- C9 counterexample: the code's test is `'mega.nz' in href` — a substring
check, not host matching.  A link on host `evil.example` whose query string
merely mentions `mega.nz` IS selected, while the spec's host-matching
resolver (modelled separately) returns `none` for the same page. -/
theorem c9_substring_not_host :
    get_mega_file_url ["https://evil.example/files?from=mega.nz".toList]
        = some "https://evil.example/files?from=mega.nz".toList ∧
    hostOf "https://evil.example/files?from=mega.nz".toList
        = "evil.example".toList ∧
    specLinkResolver ["https://evil.example/files?from=mega.nz".toList] = none :=
  ⟨by decide, by decide, by decide⟩

/-- C9 amended: the Link Resolver returns the first hyperlink, in document
order, whose URL contains the substring `mega.nz` anywhere (host position
not required), and `None` exactly when no hyperlink contains it. -/
theorem c9_first_substring_match (hrefs : List Str) :
    (get_mega_file_url hrefs = none ↔
      ∀ h ∈ hrefs, containsSub "mega.nz".toList h = false) ∧
    (∀ u, get_mega_file_url hrefs = some u →
      u ∈ hrefs ∧ containsSub "mega.nz".toList u = true ∧
      ∃ pre post, hrefs = pre ++ u :: post ∧
        ∀ h ∈ pre, containsSub "mega.nz".toList h = false) := by
  induction hrefs with
  | nil =>
    constructor
    · simp [get_mega_file_url]
    · intro u h
      cases h
  | cons a rest ih =>
    by_cases ha : containsSub "mega.nz".toList a = true
    · have hstep : get_mega_file_url (a :: rest) = some a := by
        unfold get_mega_file_url
        rw [List.filter_cons]
        split
        · rfl
        · rename_i hcond
          exact absurd ha hcond
      constructor
      · rw [hstep]
        constructor
        · intro h; cases h
        · intro hall
          rw [hall a (List.mem_cons_self _ _)] at ha
          cases ha
      · intro u h
        rw [hstep] at h
        injection h with h1
        subst h1
        refine ⟨List.mem_cons_self _ _, ha, [], rest, rfl, ?_⟩
        intro h2 hh2
        cases hh2
    · simp only [Bool.not_eq_true] at ha
      have hstep : get_mega_file_url (a :: rest) = get_mega_file_url rest := by
        unfold get_mega_file_url
        rw [List.filter_cons]
        split
        · rename_i hcond
          exact absurd (ha.symm.trans hcond) (by decide)
        · rfl
      constructor
      · rw [hstep, ih.1]
        constructor
        · intro hall h hh
          rcases List.mem_cons.mp hh with rfl | hh2
          · exact ha
          · exact hall h hh2
        · intro hall h hh
          exact hall h (List.mem_cons_of_mem _ hh)
      · intro u h
        rw [hstep] at h
        obtain ⟨hmem, hcs, pre, post, heq, hpre⟩ := ih.2 u h
        refine ⟨List.mem_cons_of_mem _ hmem, hcs, a :: pre, post, ?_, ?_⟩
        · rw [List.cons_append, heq]
        · intro h2 hh2
          rcases List.mem_cons.mp hh2 with rfl | hh3
          · exact ha
          · exact hpre h2 hh3

theorem c9_witness :
    get_mega_file_url ["https://a.example/x".toList] = none :=
  ((c9_first_substring_match ["https://a.example/x".toList]).1).mpr (by decide)

/-! ## Claims about the Archive Fetcher -/

theorem foldlLatest_spec (r : FileInfo) : ∀ rs : List FileInfo,
    (rs.foldl (fun b x => if b.mtime < x.mtime then x else b) r) ∈ r :: rs ∧
    ∀ x ∈ r :: rs,
      x.mtime ≤ (rs.foldl (fun b x => if b.mtime < x.mtime then x else b) r).mtime := by
  intro rs
  induction rs generalizing r with
  | nil =>
    refine ⟨List.mem_cons_self _ _, ?_⟩
    intro x hx
    rcases List.mem_cons.mp hx with rfl | hx2
    · exact le_refl _
    · cases hx2
  | cons y ys ih =>
    simp only [List.foldl_cons]
    obtain ⟨ihmem, ihle⟩ := ih (if r.mtime < y.mtime then y else r)
    constructor
    · rcases List.mem_cons.mp ihmem with heq | hmem2
      · rw [heq]
        by_cases hry : r.mtime < y.mtime
        · rw [if_pos hry]
          exact List.mem_cons_of_mem _ (List.mem_cons_self _ _)
        · rw [if_neg hry]
          exact List.mem_cons_self _ _
      · exact List.mem_cons_of_mem _ (List.mem_cons_of_mem _ hmem2)
    · intro x hx
      rcases List.mem_cons.mp hx with rfl | hx2
      · calc x.mtime ≤ (if x.mtime < y.mtime then y else x).mtime := by
              by_cases hry : x.mtime < y.mtime
              · rw [if_pos hry]; exact le_of_lt hry
              · rw [if_neg hry]
          _ ≤ _ := ihle _ (List.mem_cons_self _ _)
      · rcases List.mem_cons.mp hx2 with rfl | hx3
        · calc x.mtime ≤ (if r.mtime < x.mtime then x else r).mtime := by
                by_cases hry : r.mtime < x.mtime
                · rw [if_pos hry]
                · rw [if_neg hry]; exact le_of_not_lt hry
            _ ≤ _ := ihle _ (List.mem_cons_self _ _)
        · exact ihle x (List.mem_cons_of_mem _ hx3)

/-- C8 counterexample: the recovery re-scan runs only when the error text
contains `WinError 32`.  A plain `timeout` error with a matching `.rar`
archive sitting in the destination directory is NOT recovered: the fetcher
returns failure, contradicting the claim that every erroring retrieval with
a matching archive present recovers it. -/
theorem c8_no_recovery_without_marker :
    (".rar".toList.isSuffixOf "c9.rar".toList) = true ∧
    download_from_mega (Except.error "timeout".toList) "t".toList
        [⟨"c9.rar".toList, 3⟩] = none :=
  ⟨by decide, by decide⟩

/-- C8 amended: on a retrieval error the fetcher recovers only when the
error text contains `WinError 32`: it then re-scans the destination and
returns the most recently modified `.rar` (failure if none); any other
error is a definitive failure even if a matching archive exists. -/
theorem c8_recovery_characterization (e dest : Str) (listing : List FileInfo) :
    (containsSub "WinError 32".toList e = false →
      download_from_mega (Except.error e) dest listing = none) ∧
    (containsSub "WinError 32".toList e = true →
      (listing.filter (fun f => ".rar".toList.isSuffixOf f.name) = [] →
        download_from_mega (Except.error e) dest listing = none) ∧
      (listing.filter (fun f => ".rar".toList.isSuffixOf f.name) ≠ [] →
        ∃ best : FileInfo,
          download_from_mega (Except.error e) dest listing =
            some (joinPath dest best.name, best.name) ∧
          best ∈ listing.filter (fun f => ".rar".toList.isSuffixOf f.name) ∧
          ∀ x ∈ listing.filter (fun f => ".rar".toList.isSuffixOf f.name),
            x.mtime ≤ best.mtime)) := by
  constructor
  · intro hw
    simp only [download_from_mega]
    split
    · rename_i hcond
      exact absurd (hw.symm.trans hcond) (by decide)
    · rfl
  · intro hw
    constructor
    · intro hnil
      simp only [download_from_mega]
      split
      · rw [hnil]
      · rename_i hcond
        exact absurd hw hcond
    · intro hne
      simp only [download_from_mega]
      split
      · cases hfil : listing.filter (fun f => ".rar".toList.isSuffixOf f.name) with
        | nil => exact absurd hfil hne
        | cons r rs =>
          obtain ⟨hmem, hle⟩ := foldlLatest_spec r rs
          exact ⟨_, rfl, hmem, hle⟩
      · rename_i hcond
        exact absurd hw hcond

theorem c8_witness :
    ∃ best : FileInfo,
      download_from_mega (Except.error "x WinError 32 y".toList) "t".toList
          [⟨"a.rar".toList, 1⟩, ⟨"b.rar".toList, 5⟩] =
        some (joinPath "t".toList best.name, best.name) ∧
      best ∈ ([⟨"a.rar".toList, 1⟩, ⟨"b.rar".toList, 5⟩] : List FileInfo).filter
        (fun f => ".rar".toList.isSuffixOf f.name) ∧
      ∀ x ∈ ([⟨"a.rar".toList, 1⟩, ⟨"b.rar".toList, 5⟩] : List FileInfo).filter
        (fun f => ".rar".toList.isSuffixOf f.name), x.mtime ≤ best.mtime :=
  ((c8_recovery_characterization "x WinError 32 y".toList "t".toList
      [⟨"a.rar".toList, 1⟩, ⟨"b.rar".toList, 5⟩]).2 (by decide)).2 (by decide)

/-! ## Claims about the Pipeline Coordinator -/

/-- C1: the Ledger is updated only on full pipeline success, and only after
the output PDF was written: a run that does not return success performs no
`recordedLedger` effect and leaves the watcher's in-memory set unchanged;
whenever a `recordedLedger` effect occurs, the run succeeded, the recorded
link is the announcement's, and a `wrotePdf` effect precedes it in the
trace.  A missing storage link fails the run with no effects at all. -/
theorem c1_ledger_only_on_success (td od : Str) (env : PipeEnv) (link : Str)
    (processed : List Str) :
    ((process_new_chapter td od env link).1 ≠ PipeResult.success →
      (∀ l, Ev.recordedLedger l ∉ (process_new_chapter td od env link).2) ∧
      watchStep td od env link processed = processed) ∧
    (∀ l, Ev.recordedLedger l ∈ (process_new_chapter td od env link).2 →
      (process_new_chapter td od env link).1 = PipeResult.success ∧ l = link ∧
      ∃ t1 t2 p, (process_new_chapter td od env link).2
          = t1 ++ Ev.wrotePdf p :: t2 ∧ Ev.recordedLedger l ∈ t2) ∧
    (env.megaLink = none →
      process_new_chapter td od env link = (PipeResult.failure, [])) := by
  obtain ⟨ml, dl, exOk, rmA, lst, op, sv, rmD⟩ := env
  cases ml with
  | none => simp [process_new_chapter, watchStep]
  | some m =>
    cases dl with
    | none => simp [process_new_chapter, watchStep]
    | some pr =>
      obtain ⟨rarPath, rarName⟩ := pr
      cases hch : get_chapter_number_from_filename rarName with
      | none =>
        cases rmA <;> simp [process_new_chapter, watchStep, hch]
      | some ch =>
        cases exOk with
        | false => cases rmA <;> simp [process_new_chapter, watchStep, hch]
        | true =>
          cases hpdf : images_to_pdf lst op sv (joinPath td (chapterDirName ch)) with
          | crash => simp [process_new_chapter, watchStep, hch, hpdf]
          | failure => simp [process_new_chapter, watchStep, hch, hpdf]
          | success pages =>
            refine ⟨?_, ?_, ?_⟩
            · intro hns
              exfalso
              apply hns
              simp [process_new_chapter, hch, hpdf]
            · intro l hl
              simp only [process_new_chapter, hch, hpdf] at hl ⊢
              simp at hl
              refine ⟨rfl, hl, ?_⟩
              refine ⟨[Ev.downloadedArchive rarPath,
                Ev.madeExtractDir (joinPath td (chapterDirName ch)),
                Ev.extractedArchive (joinPath td (chapterDirName ch)),
                Ev.removedArchive (!rmA)],
                [Ev.removedExtractDir (!rmD), Ev.recordedLedger link],
                joinPath od (pdfFileName ch), ?_, ?_⟩
              · simp [hl]
              · simp [hl]
            · intro hml
              cases hml
  
theorem c1_witness :
    process_new_chapter "t".toList "o".toList
      ⟨none, none, true, false, [], fun _ => true, true, false⟩ "L".toList
      = (PipeResult.failure, []) :=
  (c1_ledger_only_on_success "t".toList "o".toList
    ⟨none, none, true, false, [], fun _ => true, true, false⟩ "L".toList []).2.2 rfl

/-- C6 counterexample: the pipeline derives the chapter number from the
archive file name ONLY — `get_chapter_number_from_title` is defined but
never called.  For archive `chapter5.rar` (file-name strategy yields
nothing) with a title whose digits would yield 5, the chapter is rejected:
the run fails and records nothing, contradicting the claimed title
fallback. -/
theorem c6_no_title_fallback :
    get_chapter_number_from_filename "chapter5.rar".toList = none ∧
    get_chapter_number_from_title "Chapter 5 is out".toList = some 5 ∧
    (process_new_chapter "t".toList "o".toList
      ⟨some "m".toList, some ("t/chapter5.rar".toList, "chapter5.rar".toList),
        true, false, [], fun _ => true, true, false⟩ "L".toList).1
      = PipeResult.failure ∧
    Ev.recordedLedger "L".toList ∉ (process_new_chapter "t".toList "o".toList
      ⟨some "m".toList, some ("t/chapter5.rar".toList, "chapter5.rar".toList),
        true, false, [], fun _ => true, true, false⟩ "L".toList).2 :=
  ⟨by decide, by decide, by decide, by decide⟩

/-- C6 amended: chapter-number derivation consults only the archive's file
name; there is no second strategy at run time (the title-based helper is
dead code), so whenever the file name yields no number the chapter is
rejected — the run cannot succeed and no Ledger record is made — whatever
number the announcement title contains. -/
theorem c6_filename_only (td od : Str) (env : PipeEnv) (link : Str)
    (m p fn : Str) (hm : env.megaLink = some m) (hdl : env.download = some (p, fn))
    (hch : get_chapter_number_from_filename fn = none) :
    (process_new_chapter td od env link).1 ≠ PipeResult.success ∧
    ∀ l, Ev.recordedLedger l ∉ (process_new_chapter td od env link).2 := by
  obtain ⟨ml, dl, exOk, rmA, lst, op, sv, rmD⟩ := env
  simp only at hm hdl
  subst hm
  subst hdl
  cases rmA <;> simp [process_new_chapter, hch]

theorem c6_witness :
    (process_new_chapter "t".toList "o".toList
      ⟨some "m".toList, some ("t/x.rar".toList, "x.rar".toList),
        true, false, [], fun _ => true, true, false⟩ "L".toList).1
      ≠ PipeResult.success :=
  (c6_filename_only "t".toList "o".toList
    ⟨some "m".toList, some ("t/x.rar".toList, "x.rar".toList),
      true, false, [], fun _ => true, true, false⟩ "L".toList
    "m".toList "t/x.rar".toList "x.rar".toList rfl rfl (by decide)).1

/-- C7 counterexample: a run that reaches the assembly stage but whose
assembly FAILS (here: the extraction directory lists no images) returns
failure without ever attempting to delete the scratch extraction
directory — no `removedExtractDir` effect occurs — contradicting the
claimed unconditional deletion. -/
theorem c7_no_cleanup_on_assembly_failure :
    (process_new_chapter "t".toList "o".toList
      ⟨some "m".toList, some ("t/c12.rar".toList, "c12.rar".toList),
        true, false, [], fun _ => false, true, false⟩ "L".toList).1
      = PipeResult.failure ∧
    Ev.extractedArchive (joinPath "t".toList (chapterDirName 12)) ∈
      (process_new_chapter "t".toList "o".toList
        ⟨some "m".toList, some ("t/c12.rar".toList, "c12.rar".toList),
          true, false, [], fun _ => false, true, false⟩ "L".toList).2 ∧
    Ev.removedExtractDir true ∉ (process_new_chapter "t".toList "o".toList
      ⟨some "m".toList, some ("t/c12.rar".toList, "c12.rar".toList),
        true, false, [], fun _ => false, true, false⟩ "L".toList).2 ∧
    Ev.removedExtractDir false ∉ (process_new_chapter "t".toList "o".toList
      ⟨some "m".toList, some ("t/c12.rar".toList, "c12.rar".toList),
        true, false, [], fun _ => false, true, false⟩ "L".toList).2 :=
  ⟨by decide, by decide, by decide, by decide⟩

/-- C7 amended: the scratch extraction directory is deleted exactly when
assembly succeeds — a `removedExtractDir` effect in the trace implies a
successful run, and every successful run attempts the deletion right after
the PDF write and before the Ledger record, with the attempt present (and
the run still successful) even when the deletion itself fails
(`env.rmDirErr`). -/
theorem c7_cleanup_only_after_assembly_success (td od : Str) (env : PipeEnv)
    (link : Str) :
    (∀ b, Ev.removedExtractDir b ∈ (process_new_chapter td od env link).2 →
      (process_new_chapter td od env link).1 = PipeResult.success) ∧
    ((process_new_chapter td od env link).1 = PipeResult.success →
      ∃ t1 p, (process_new_chapter td od env link).2 =
        t1 ++ [Ev.wrotePdf p, Ev.removedExtractDir (!env.rmDirErr),
               Ev.recordedLedger link] ∧
        ∀ b, Ev.removedExtractDir b ∉ t1) := by
  obtain ⟨ml, dl, exOk, rmA, lst, op, sv, rmD⟩ := env
  cases ml with
  | none => simp [process_new_chapter]
  | some m =>
    cases dl with
    | none => simp [process_new_chapter]
    | some pr =>
      obtain ⟨rarPath, rarName⟩ := pr
      cases hch : get_chapter_number_from_filename rarName with
      | none => cases rmA <;> simp [process_new_chapter, hch]
      | some ch =>
        cases exOk with
        | false => cases rmA <;> simp [process_new_chapter, hch]
        | true =>
          cases hpdf : images_to_pdf lst op sv (joinPath td (chapterDirName ch)) with
          | crash => simp [process_new_chapter, hch, hpdf]
          | failure => simp [process_new_chapter, hch, hpdf]
          | success pages =>
            constructor
            · intro b _
              simp [process_new_chapter, hch, hpdf]
            · intro _
              refine ⟨[Ev.downloadedArchive rarPath,
                Ev.madeExtractDir (joinPath td (chapterDirName ch)),
                Ev.extractedArchive (joinPath td (chapterDirName ch)),
                Ev.removedArchive (!rmA)],
                joinPath od (pdfFileName ch), ?_, ?_⟩
              · simp [process_new_chapter, hch, hpdf]
              · intro b
                simp

theorem c7_witness :
    ∃ t1 p, (process_new_chapter "t".toList "o".toList
      ⟨some "m".toList, some ("t/c12.rar".toList, "c12.rar".toList),
        true, false, ["c12_p1.jpg".toList], fun _ => true, true, true⟩ "L".toList).2 =
      t1 ++ [Ev.wrotePdf p, Ev.removedExtractDir (!(true : Bool)),
             Ev.recordedLedger "L".toList] ∧
      ∀ b, Ev.removedExtractDir b ∉ t1 :=
  (c7_cleanup_only_after_assembly_success "t".toList "o".toList
    ⟨some "m".toList, some ("t/c12.rar".toList, "c12.rar".toList),
      true, false, ["c12_p1.jpg".toList], fun _ => true, true, true⟩ "L".toList).2
    (by decide)
